import Mathlib

namespace Arancino

structure Injection where
  start_time : Int
  end_time : Int
  tag : String
deriving Repr, DecidableEq

instance : Inhabited Injection := ⟨⟨0, 0, ""⟩⟩

def pyIsNumeric (s : String) : Bool :=
  s.length > 0 && s.toList.all Char.isDigit

def pyInt (s : String) : Int :=
  (s.toNat?).getD 0

def sortInjections (injs : List Injection) : List Injection :=
  injs.mergeSort (fun a b => a.start_time ≤ b.start_time)

def advanceCursor (injs : List Injection) (t : Int) (idx : Nat) : Nat :=
  if idx + 1 < injs.length ∧ (injs.getD idx default).end_time < t then
    advanceCursor injs t (idx + 1)
  else idx
termination_by injs.length - idx

/-- Label computation for one monitor row (merge_data_injections.py lines 107-113). -/
def labelFor (injs : List Injection) (idx : Nat) (t : Int) : String × Nat :=
  if idx < injs.length then
    let idx2 := advanceCursor injs t idx
    let cur := injs.getD idx2 default
    (if cur.start_time ≤ t ∧ t ≤ cur.end_time then cur.tag else "normal", idx2)
  else ("normal", idx)

def rowKept (tsIdx : Nat) (row : List String) : Bool :=
  tsIdx < row.length && pyIsNumeric (row.getD tsIdx "")

/-- The row loop of merge_data_injections.py (lines 101-115), threading inj_index. -/
def mergeRowsGo (injs : List Injection) (tsIdx : Nat) (idx : Nat) : List (List String) → List (List String)
  | [] => []
  | row :: rest =>
    if rowKept tsIdx row then
      let p := labelFor injs idx (pyInt (row.getD tsIdx ""))
      (row ++ [p.1]) :: mergeRowsGo injs tsIdx p.2 rest
    else
      mergeRowsGo injs tsIdx idx rest

def merge_data (injs : List Injection) (tsIdx : Nat) (rows : List (List String)) : List (List String) :=
  mergeRowsGo (sortInjections injs) tsIdx 0 rows

def mergeHeader (hdr : List String) : List String := hdr ++ ["label"]

/-- Spec-side label of one row against the current injection record. -/
def specLabel (t : Int) (cur : Injection) : String :=
  if cur.start_time ≤ t ∧ t ≤ cur.end_time then cur.tag else "normal"

/-- Spec-side cursor: advance while the timestamp exceeds the current record's end
(keeping the last record as current), then label by inclusive containment. -/
def specCursor : List Injection → Int → String × List Injection
  | [], _ => ("normal", [])
  | [cur], t => (specLabel t cur, [cur])
  | cur :: next :: rest, t =>
    if cur.end_time < t then specCursor (next :: rest) t
    else (specLabel t cur, cur :: next :: rest)

def specMergeRows (tsIdx : Nat) : List Injection → List (List String) → List (List String)
  | _, [] => []
  | rem, row :: rest =>
    let p := specCursor rem (pyInt (row.getD tsIdx ""))
    (row ++ [p.1]) :: specMergeRows tsIdx p.2 rest

/-- Campaign configuration (InjectionManager fields and campaign_body arguments). -/
structure CampaignCfg where
  duration : Int
  cooldown : Int
  errorRate : Rat
  nInj : Nat
  cycleMs : Int
  cycles : Nat

/-- Campaign loop state: available_inj, inj_timer and the cycles at which injections started. -/
structure CampState where
  avail : Option Nat
  timer : Int
  starts : List Nat
deriving Repr, DecidableEq

def initCamp : CampState := ⟨none, 0, []⟩

/-- The per-cycle gate of campaign_body (InjectionManager.py lines 85-87): no active
injection, no cooldown, enough campaign time left, and randint(0,999)/999.0 <= error_rate. -/
def gateFires (cfg : CampaignCfg) (st : CampState) (cycleId : Nat) (draw : Nat) : Bool :=
  st.avail.isNone && (st.timer == 0) &&
    decide (((cfg.cycles : Int) - cycleId - 1) * cfg.cycleMs > cfg.duration) &&
    decide (mkRat (draw : Int) 999 ≤ cfg.errorRate)

/-- One cycle of campaign_body (lines 80-104): possibly start an injection, then
decrement inj_timer by cycle_ms (reset to 0 from nonpositive) and clear available_inj
once inj_timer < cooldown. `sel` models the random injector choice. -/
def campStep (cfg : CampaignCfg) (cycleId : Nat) (draw sel : Nat) (st : CampState) : CampState :=
  let st1 := if gateFires cfg st cycleId draw then
    { avail := some (sel % cfg.nInj), timer := cfg.duration + cfg.cooldown,
      starts := cycleId :: st.starts }
    else st
  let t2 := if st1.timer > 0 then st1.timer - cfg.cycleMs else 0
  { avail := if t2 < cfg.cooldown then none else st1.avail, timer := t2, starts := st1.starts }

/-- State at the start of cycle i (draws i = gate draw and injector selection for cycle i). -/
def campState (cfg : CampaignCfg) (draws : Nat → Nat × Nat) : Nat → CampState
  | 0 => initCamp
  | i + 1 => campStep cfg i (draws i).1 (draws i).2 (campState cfg draws i)

/-- campaign_body runs the loop only when the injector list is set and non-empty. -/
def campaign_body (cfg : CampaignCfg) (draws : Nat → Nat × Nat) : CampState :=
  if 0 < cfg.nInj then campState cfg draws cfg.cycles else initCamp

/-- Gap demanded between two consecutive injection start cycles. -/
def startGap (cfg : CampaignCfg) (a b : Nat) : Prop :=
  (b : Int) * cfg.cycleMs + (cfg.duration + cfg.cooldown) ≤ (a : Int) * cfg.cycleMs

/-- Per-injector record: its name() and its injected_interval log (start, end pairs). -/
structure InjectorLog where
  name : String
  log : List (Int × Int)

/-- InjectionManager state relevant to collect_injections. -/
structure IMState where
  campaign_running : Bool
  injections : Option (List Injection)
  injectors : List InjectorLog

/-- dict(item, inj_name=inj.get_name()) over an injector's intervals. -/
def tagIntervals (inj : InjectorLog) : List Injection :=
  inj.log.map (fun iv => ⟨iv.1, iv.2, inj.name⟩)

/-- InjectionManager.collect_injections (lines 124-143). The force-close wait loop never
returns while campaign_running holds, modeled as the none case; a finished campaign
falls through to the merge of the injector logs. -/
def collect_injections (st : IMState) : Option (List Injection × IMState) :=
  if st.campaign_running then none
  else
    match st.injections with
    | some l => some (l, st)
    | none =>
      let l := st.injectors.foldl
        (fun acc inj => if inj.log.length > 0 then acc ++ tagIntervals inj else acc) []
      some (l, { st with injections := some l })

/-- A Python exception escaping a probe's read_data. -/
inductive PyExc where
  | err
deriving Repr, DecidableEq

/-- Python dict insert: overwrite in place when the key exists, else append. -/
def pyInsert1 (d : List (String × String)) (kv : String × String) : List (String × String) :=
  if d.any (fun p => p.1 == kv.1) then
    d.map (fun p => if p.1 == kv.1 then (p.1, kv.2) else p)
  else d ++ [kv]

/-- Python dict.update: insert every pair of the new dict in order. -/
def pyUpdate (d new : List (String × String)) : List (String × String) :=
  new.foldl pyInsert1 d

/-- The probe loop of ProbeManager.read_probes_data (lines 51-54): there is no
try/except, so an exception raised by a probe's read_data propagates. -/
def read_probes_go (acc : List (String × String)) :
    List (Except PyExc (Option (List (String × String)))) →
      Except PyExc (Option (List (String × String)))
  | [] => .ok (some acc)
  | .error e :: _ => .error e
  | .ok none :: rest => read_probes_go acc rest
  | .ok (some d) :: rest => read_probes_go (pyUpdate acc d) rest

/-- ProbeManager.read_probes_data (lines 46-55): None when no probes are set, else the
timestamp entry followed by the update of every probe's dict. -/
def read_probes_data (now : Int)
    (probes : List (Except PyExc (Option (List (String × String))))) :
    Except PyExc (Option (List (String × String))) :=
  if probes.length = 0 then .ok none
  else read_probes_go [("timestamp", toString now)] probes

def joinComma (l : List String) : String :=
  String.intercalate "," l

/-- utils.store_observations (lines 13-25): header from the first row's keys only when
the file does not exist yet, then one line per row joining that row's own values.
Returns the written lines; none models the IndexError on obs_data[0] when the file is
missing and obs_data is empty. -/
def store_observations (fileExists : Bool) (obs_data : List (List (String × String))) :
    Option (List String) :=
  match fileExists, obs_data with
  | false, [] => none
  | false, first :: rest =>
    some (joinComma (first.map Prod.fst) ::
      (first :: rest).map (fun o => joinComma (o.map Prod.snd)))
  | true, _ => some (obs_data.map (fun o => joinComma (o.map Prod.snd)))

/-- The sink contract as the spec states it: values rendered in the header's column
order, a missing column rendered as an empty field. -/
def sinkAppendSpec (fileExists : Bool) (obs_data : List (List (String × String))) :
    Option (List String) :=
  match obs_data with
  | [] => none
  | first :: rest =>
    let hdr := first.map Prod.fst
    let lines := (first :: rest).map
      (fun o => joinComma (hdr.map (fun k => ((o.lookup k).getD ""))))
    some (if fileExists then lines else joinComma hdr :: lines)

/-- Splitter core: split a character list at every occurrence of sep. -/
def splitCharsAux (sep : Char) : List Char → List Char → List (List Char)
  | [], acc => [acc.reverse]
  | c :: rest, acc =>
    if c == sep then acc.reverse :: splitCharsAux sep rest []
    else splitCharsAux sep rest (c :: acc)

/-- Python str.split(sep) for a one-character separator. -/
def pySplit (sep : Char) (s : String) : List String :=
  (splitCharsAux sep s.data []).map List.asString

/-- Python `c in s` for a single character. -/
def pyContains (s : String) (c : Char) : Bool :=
  s.data.any (fun x => x == c)

/-- Python str.strip(): drop leading and trailing whitespace. -/
def pyStrip (s : String) : String :=
  List.asString (((s.data.dropWhile Char.isWhitespace).reverse.dropWhile
    Char.isWhitespace).reverse)

/-- One line of ScriptProbe.to_dict (ArancinoProbe.py lines 207-214): non-empty line
containing a colon; key = split(':')[0] stripped, value = split(':')[1] stripped, then
the first space token when the value contains a space. -/
def shellKVLine (line : String) : Option (String × String) :=
  if line.length > 0 && pyContains line ':' then
    let parts := pySplit ':' line
    let k := pyStrip (parts.getD 0 "")
    let v0 := pyStrip (parts.getD 1 "")
    some (k, if pyContains v0 ' ' then pyStrip ((pySplit ' ' v0).getD 0 "") else v0)
  else none

/-- ScriptProbe.to_dict (lines 194-215): None on empty output, else the dict built from
the parsed lines. -/
def to_dict (s : String) : Option (List (String × String)) :=
  if s.length = 0 then none
  else
    some (((pySplit '\n' s)).foldl
      (fun d line =>
        match shellKVLine line with
        | some kv => pyInsert1 d kv
        | none => d) [])

/-- ScriptProbe.read_data tag prefixing (lines 188-190) applied to to_dict output. -/
def scriptProbeRead (tag : String) (s : String) : Option (List (String × String)) :=
  (to_dict s).map (fun d => d.map (fun kv => (tag ++ "." ++ kv.1, kv.2)))

/-- The ShellKV parser as the claim states it: the line is split on the FIRST colon, so
the value keeps everything after that colon. -/
def shellKVClaimLine (line : String) : Option (String × String) :=
  if line.length > 0 && pyContains line ':' then
    let parts := pySplit ':' line
    let k := pyStrip (parts.headD "")
    let v0 := pyStrip (String.intercalate ":" parts.tail)
    some (k, if pyContains v0 ' ' then pyStrip ((pySplit ' ' v0).headD "") else v0)
  else none

def shellKVClaim (tag : String) (s : String) : Option (List (String × String)) :=
  if s.length = 0 then none
  else
    some ((((pySplit '\n' s)).foldl
      (fun d line =>
        match shellKVClaimLine line with
        | some kv => pyInsert1 d kv
        | none => d) []).map (fun kv => (tag ++ "." ++ kv.1, kv.2)))

/-- The ShellKV parser, amended: the value is the text between the first and the second
colon (trimmed, first space token when it contains a space). -/
def shellKVAmendedLine (line : String) : Option (String × String) :=
  if line.length > 0 && pyContains line ':' then
    let parts := pySplit ':' line
    let k := pyStrip (parts.headD "")
    let v0 := pyStrip (parts.tail.headD "")
    some (k, if pyContains v0 ' ' then pyStrip ((pySplit ' ' v0).headD "") else v0)
  else none

def shellKVAmended (tag : String) (s : String) : Option (List (String × String)) :=
  if s.length = 0 then none
  else
    some ((((pySplit '\n' s)).foldl
      (fun d line =>
        match shellKVAmendedLine line with
        | some kv => pyInsert1 d kv
        | none => d) []).map (fun kv => (tag ++ "." ++ kv.1, kv.2)))

/-- The Python exception subprocess.check_output raises on a non-zero exit status. -/
inductive SubprocErr where
  | calledProcessError
deriving Repr, DecidableEq

/-- subprocess.check_output(['pgrep', pname]): pgrep prints matching PIDs and exits 0,
or prints nothing and exits 1, in which case check_output raises CalledProcessError.
The environment maps a process name to its pgrep stdout, none when there is no match. -/
def check_output_pgrep (env : String → Option String) (pname : String) :
    Except SubprocErr String :=
  match env pname with
  | some out => .ok out
  | none => .error .calledProcessError

/-- ProcessHangInjection.exists_process (LoadInjector.py lines 556-562). -/
def exists_process (env : String → Option String) (pname : Option String) :
    Except SubprocErr Bool :=
  match pname with
  | some p => (check_output_pgrep env p).map (fun out => out.length > 0)
  | none => .ok false

/-- ProcessHangInjection.__init__ (lines 545-554): set process_name when the process
exists, else null it; any exception from exists_process propagates. -/
def processHangInit (env : String → Option String) (process_name : String) :
    Except SubprocErr (Option String) :=
  (exists_process env (some process_name)).map
    (fun b => if b then some process_name else none)

/-- ProcessHangInjection.inject_body null-target branch (lines 577-578): no interval is
appended and time.sleep(self.duration_ms) sleeps duration_ms SECONDS, i.e.
1000 * duration_ms milliseconds. Returns (appended intervals, slept milliseconds). -/
def processHangInjectNull (duration_ms : Int) : List (Int × Int) × Int :=
  ([], duration_ms * 1000)

theorem advanceCursor_eq_unfold (injs : List Injection) (t : Int) (idx : Nat) :
    advanceCursor injs t idx =
      if idx + 1 < injs.length ∧ (injs.getD idx default).end_time < t then
        advanceCursor injs t (idx + 1)
      else idx := by
  rw [advanceCursor]

theorem specCursor_drop (injs : List Injection) (t : Int) :
    ∀ n idx, injs.length ≤ idx + n →
      specCursor (injs.drop idx) t = ((labelFor injs idx t).1, injs.drop (labelFor injs idx t).2) := by
  intro n
  induction n with
  | zero =>
    intro idx h
    have hdrop : injs.drop idx = [] := List.drop_eq_nil_of_le (by omega)
    have hge : ¬ idx < injs.length := by omega
    simp [labelFor, hge, hdrop, specCursor]
  | succ n ih =>
    intro idx h
    by_cases hlt : idx < injs.length
    · have hdrop : injs.drop idx = injs[idx] :: injs.drop (idx + 1) :=
        List.drop_eq_getElem_cons hlt
      have hget : injs.getD idx default = injs[idx] := List.getD_eq_getElem injs default hlt
      by_cases hadv : idx + 1 < injs.length ∧ (injs.getD idx default).end_time < t
      · -- advance case: both cursors step to idx + 1
        have hlab : labelFor injs idx t = labelFor injs (idx + 1) t := by
          simp only [labelFor, hlt, if_true, hadv.1, if_true]
          rw [advanceCursor_eq_unfold injs t idx, if_pos hadv]
        have hdrop1 : injs.drop (idx + 1) = injs[idx+1] :: injs.drop (idx + 2) :=
          List.drop_eq_getElem_cons hadv.1
        rw [hlab, ← ih (idx + 1) (by omega), hdrop, hdrop1, specCursor]
        rw [hget] at hadv
        simp [hadv.2, ← hdrop1]
      · -- stay case
        have hlab : labelFor injs idx t = (specLabel t injs[idx], idx) := by
          simp only [labelFor, hlt, if_true]
          rw [advanceCursor_eq_unfold injs t idx, if_neg hadv]
          simp [specLabel, List.getD, List.getElem?_eq_getElem hlt]
        rw [hlab, hdrop]
        by_cases hend : idx + 1 < injs.length
        · have hdrop1 : injs.drop (idx + 1) = injs[idx+1] :: injs.drop (idx + 2) :=
            List.drop_eq_getElem_cons hend
          have hnot : ¬ (injs[idx]).end_time < t := by
            intro hc
            exact hadv ⟨hend, by rw [hget]; exact hc⟩
          rw [hdrop1, specCursor]
          simp [hnot, ← hdrop1, ← hdrop]
        · have hdrop1 : injs.drop (idx + 1) = [] := by
            apply List.drop_eq_nil_of_le; omega
          rw [hdrop1, specCursor, ← hdrop1, ← hdrop]
    · have hdrop : injs.drop idx = [] := List.drop_eq_nil_of_le (by omega)
      simp [labelFor, hlt, hdrop, specCursor]

theorem mergeRowsGo_filter (injs : List Injection) (tsIdx : Nat) :
    ∀ rows idx, mergeRowsGo injs tsIdx idx rows =
      mergeRowsGo injs tsIdx idx (rows.filter (rowKept tsIdx)) := by
  intro rows
  induction rows with
  | nil => intro idx; rfl
  | cons row rest ih =>
    intro idx
    by_cases hk : rowKept tsIdx row = true
    · rw [List.filter_cons_of_pos hk]
      simp only [mergeRowsGo, hk, if_true]
      rw [ih]
    · rw [List.filter_cons_of_neg (by simpa using hk)]
      simp only [mergeRowsGo, hk, if_false]
      exact ih idx

theorem mergeRowsGo_spec (injs : List Injection) (tsIdx : Nat) :
    ∀ rows idx, (∀ r ∈ rows, rowKept tsIdx r = true) →
      mergeRowsGo injs tsIdx idx rows = specMergeRows tsIdx (injs.drop idx) rows := by
  intro rows
  induction rows with
  | nil => intro idx _; rfl
  | cons row rest ih =>
    intro idx hall
    have hk : rowKept tsIdx row = true := hall row (by simp)
    simp only [mergeRowsGo, hk, if_true, specMergeRows]
    rw [specCursor_drop injs (pyInt (row.getD tsIdx "")) injs.length idx (by omega)]
    rw [ih _ (fun r hr => hall r (by simp [hr]))]

theorem specMergeRows_length (tsIdx : Nat) :
    ∀ rows rem, (specMergeRows tsIdx rem rows).length = rows.length := by
  intro rows
  induction rows with
  | nil => intro rem; rfl
  | cons row rest ih => intro rem; simp [specMergeRows, ih]

/-- C1: for every monitor file and injections file, the merge labels each written
monitor row by the claimed cursor rule over the injections sorted by start, appending
exactly one trailing label column (and `label` is appended to the header). -/
theorem merge_labels_by_cursor (injs : List Injection) (tsIdx : Nat)
    (rows : List (List String)) (hdr : List String) :
    merge_data injs tsIdx rows =
      specMergeRows tsIdx (sortInjections injs) (rows.filter (rowKept tsIdx)) ∧
    mergeHeader hdr = hdr ++ ["label"] := by
  constructor
  · rw [merge_data, mergeRowsGo_filter,
      mergeRowsGo_spec _ _ _ 0 (fun r hr => List.of_mem_filter hr)]
    simp
  · rfl

/-- C10: only rows with enough fields and a numeric timestamp are written, one output
row per kept input row, so the merged file may have fewer data rows than the monitor file. -/
theorem merge_omits_bad_rows (injs : List Injection) (tsIdx : Nat)
    (rows : List (List String)) :
    merge_data injs tsIdx rows = merge_data injs tsIdx (rows.filter (rowKept tsIdx)) ∧
    (merge_data injs tsIdx rows).length = (rows.filter (rowKept tsIdx)).length ∧
    (rows.filter (rowKept tsIdx)).length ≤ rows.length := by
  refine ⟨by simp only [merge_data]; exact mergeRowsGo_filter _ _ rows 0, ?_,
    List.length_filter_le _ _⟩
  rw [merge_data, mergeRowsGo_filter,
    mergeRowsGo_spec _ _ _ 0 (fun r hr => List.of_mem_filter hr), specMergeRows_length]

/-- C3: with error_rate = 0 the gate still fires on a draw of 0, because the code
compares randint(0,999)/999.0 <= error_rate (not a strict < on [0,1)): one injection
is started in a 3-cycle campaign whose first gate draw is 0. -/
theorem errorRate_zero_still_fires :
    (campaign_body ⟨100, 1, 0, 5, 100, 3⟩ (fun _ => (0, 0))).starts = [0] := by
  decide

/-- C4 counterexample: error_rate = 1, cooldown = 0, duration_ms = tick_ms = 100,
total_ticks = 5: the campaign starts 1 injection, not total_ticks - 1 = 4. -/
theorem campaign_not_totalTicks_sub_one :
    (campaign_body ⟨100, 0, 1, 5, 100, 5⟩ (fun _ => (999, 0))).starts.length ≠ 5 - 1 := by
  decide

theorem campStep_absorb (cfg : CampaignCfg) (i d s k : Nat) (st : CampState)
    (ha : st.avail = some k) (ht : st.timer = 0) (hc : cfg.cooldown = 0) :
    campStep cfg i d s st = st := by
  have hg : gateFires cfg st i d = false := by simp [gateFires, ha]
  simp only [campStep, hg, Bool.false_eq_true, if_false, ht, hc]
  cases st with
  | mk av tm sts => simp_all

theorem gate_rate_one (r : Rat) (hr : r = 1) (d : Nat) (hd : d ≤ 999) :
    decide (mkRat (d : Int) 999 ≤ r) = true := by
  subst hr
  rw [decide_eq_true_iff, Rat.mkRat_eq_div]
  rw [div_le_one (by norm_num)]
  exact_mod_cast hd

/-- C4 amended: with error_rate = 1, cooldown = 0 and duration_ms = tick_ms, exactly one
injection is started when total_ticks >= 3, and none otherwise: after the first start,
the clear test inj_timer < cooldown (that is, 0 < 0) never succeeds, so available_inj is
never reset and no further injection can begin. -/
theorem campaign_single_injection (cfg : CampaignCfg) (draws : Nat → Nat × Nat)
    (hr : cfg.errorRate = 1) (hc : cfg.cooldown = 0) (hd : cfg.duration = cfg.cycleMs)
    (hcy : 0 < cfg.cycleMs) (hn : 0 < cfg.nInj) (hdraws : ∀ i, (draws i).1 ≤ 999) :
    (campaign_body cfg draws).starts.length = if 3 ≤ cfg.cycles then 1 else 0 := by
  rw [campaign_body, if_pos hn]
  by_cases h3 : 3 ≤ cfg.cycles
  · rw [if_pos h3]
    have hstep1 : campState cfg draws 1 = ⟨some ((draws 0).2 % cfg.nInj), 0, [0]⟩ := by
      have htime : cfg.duration < ((cfg.cycles : Int) - 1) * cfg.cycleMs := by
        have h3i : (3 : Int) ≤ (cfg.cycles : Int) := by exact_mod_cast h3
        rw [hd]
        nlinarith
      have hg : gateFires cfg ⟨none, (0 : Int), ([] : List Nat)⟩ 0 (draws 0).1 = true := by
        simp [gateFires, htime, gate_rate_one cfg.errorRate hr _ (hdraws 0)]
      show campStep cfg 0 (draws 0).1 (draws 0).2 initCamp = _
      simp only [campStep, initCamp, hg, if_true]
      rw [hc, hd]
      simp [hcy]
    have habs : ∀ j, 1 ≤ j → campState cfg draws j = ⟨some ((draws 0).2 % cfg.nInj), 0, [0]⟩ := by
      intro j hj
      induction j with
      | zero => omega
      | succ j ihj =>
        rcases Nat.lt_or_ge 0 j with hj0 | hj0
        · have hprev := ihj (by omega)
          show campStep cfg j (draws j).1 (draws j).2 (campState cfg draws j) = _
          rw [hprev, campStep_absorb cfg j _ _ _ _ rfl rfl hc]
        · have hj1 : j = 0 := by omega
          subst hj1
          exact hstep1
    rw [habs cfg.cycles (by omega)]
    rfl
  · rw [if_neg h3]
    have hnofire : ∀ j, campState cfg draws j = initCamp := by
      intro j
      induction j with
      | zero => rfl
      | succ j ihj =>
        show campStep cfg j (draws j).1 (draws j).2 (campState cfg draws j) = _
        rw [ihj]
        have htime : ¬ (((cfg.cycles : Int) - j - 1) * cfg.cycleMs > cfg.duration) := by
          have hcy2 : (cfg.cycles : Int) ≤ 2 := by
            have : cfg.cycles ≤ 2 := by omega
            exact_mod_cast this
          have hfac : ((cfg.cycles : Int) - j - 1) ≤ 1 := by omega
          have hmul : ((cfg.cycles : Int) - j - 1) * cfg.cycleMs ≤ 1 * cfg.cycleMs :=
            mul_le_mul_of_nonneg_right hfac (by omega)
          rw [hd]
          omega
        have hg : gateFires cfg ⟨none, (0 : Int), ([] : List Nat)⟩ j (draws j).1 = false := by
          simp [gateFires, htime]
        simp [campStep, initCamp, hg, hc]
    rw [hnofire cfg.cycles]
    rfl

theorem gateFires_true_elim (cfg : CampaignCfg) (st : CampState) (i d : Nat)
    (h : gateFires cfg st i d = true) :
    st.avail = none ∧ st.timer = 0 ∧ ((cfg.cycles : Int) - i - 1) * cfg.cycleMs > cfg.duration := by
  simp only [gateFires, Bool.and_eq_true, Option.isNone_iff_eq_none, beq_iff_eq,
    decide_eq_true_eq] at h
  exact ⟨h.1.1.1, h.1.1.2, h.1.2⟩

theorem campaign_inv (cfg : CampaignCfg) (draws : Nat → Nat × Nat)
    (hd : 0 ≤ cfg.duration) (hc : 0 ≤ cfg.cooldown) (hcy : 0 ≤ cfg.cycleMs) :
    ∀ i, (∀ s ∈ (campState cfg draws i).starts,
        s < i ∧ ((cfg.cycles : Int) - s - 1) * cfg.cycleMs > cfg.duration) ∧
      List.Chain' (startGap cfg) (campState cfg draws i).starts ∧
      (∀ s l, (campState cfg draws i).starts = s :: l →
        cfg.duration + cfg.cooldown - ((i : Int) - s) * cfg.cycleMs ≤ (campState cfg draws i).timer) := by
  intro i
  induction i with
  | zero => simp [campState, initCamp]
  | succ i ih =>
    obtain ⟨ihmem, ihchain, ihtimer⟩ := ih
    rw [show campState cfg draws (i + 1) =
      campStep cfg i (draws i).1 (draws i).2 (campState cfg draws i) from rfl]
    set st := campState cfg draws i with hst
    by_cases hg : gateFires cfg st i (draws i).1 = true
    · obtain ⟨hav, htz, htime⟩ := gateFires_true_elim cfg st i (draws i).1 hg
      have hstarts : (campStep cfg i (draws i).1 (draws i).2 st).starts = i :: st.starts := by
        simp [campStep, hg]
      have htimer2 : (campStep cfg i (draws i).1 (draws i).2 st).timer =
          if cfg.duration + cfg.cooldown > 0 then cfg.duration + cfg.cooldown - cfg.cycleMs
          else 0 := by
        simp [campStep, hg]
      refine ⟨?_, ?_, ?_⟩
      · intro s hs
        rw [hstarts] at hs
        rcases List.mem_cons.mp hs with hs | hs
        · subst hs; exact ⟨Nat.lt_succ_self _, htime⟩
        · obtain ⟨h1, h2⟩ := ihmem s hs
          exact ⟨by omega, h2⟩
      · rw [hstarts]
        rcases hl : st.starts with _ | ⟨s0, l0⟩
        · simp [startGap]
        · rw [← hl]
          apply List.Chain'.cons'
          · exact ihchain
          · intro y hy
            rw [hl] at hy
            simp at hy
            subst hy
            have hti := ihtimer s0 l0 hl
            rw [htz] at hti
            unfold startGap
            have : ((i : Int) - s0) * cfg.cycleMs = (i : Int) * cfg.cycleMs - (s0 : Int) * cfg.cycleMs := by ring
            omega
      · intro s l hsl
        rw [hstarts] at hsl
        injection hsl with hs1 hs2
        subst hs1
        rw [htimer2]
        by_cases hpos : cfg.duration + cfg.cooldown > 0
        · rw [if_pos hpos]
          push_cast
          ring_nf
          omega
        · rw [if_neg hpos]
          have : ((i : Int) + 1 - i) * cfg.cycleMs = cfg.cycleMs := by ring
          omega
    · have hg2 : gateFires cfg st i (draws i).1 = false := by
        simp only [Bool.not_eq_true] at hg; exact hg
      have hstarts : (campStep cfg i (draws i).1 (draws i).2 st).starts = st.starts := by
        simp [campStep, hg2]
      have htimer2 : (campStep cfg i (draws i).1 (draws i).2 st).timer =
          if st.timer > 0 then st.timer - cfg.cycleMs else 0 := by
        simp [campStep, hg2]
      refine ⟨?_, ?_, ?_⟩
      · intro s hs
        rw [hstarts] at hs
        obtain ⟨h1, h2⟩ := ihmem s hs
        exact ⟨by omega, h2⟩
      · rw [hstarts]; exact ihchain
      · intro s l hsl
        rw [hstarts] at hsl
        have hti := ihtimer s l hsl
        rw [htimer2]
        have hexp : ((i : Int) + 1 - s) * cfg.cycleMs = ((i : Int) - s) * cfg.cycleMs + cfg.cycleMs := by
          ring
        by_cases hpos : st.timer > 0
        · rw [if_pos hpos]
          push_cast
          omega
        · rw [if_neg hpos]
          push_cast
          omega

/-- C5: campaign loop invariants. (a) start cycles are pairwise separated by at least
duration_ms of tick time, so at most one injection is active at any moment; (b) a new
injection begins only when inj_timer = 0, hence never during cooldown; (c) every start
cycle s satisfies (total_ticks - s - 1) * tick_ms > duration_ms. -/
theorem campaign_invariants (cfg : CampaignCfg) (draws : Nat → Nat × Nat) (i : Nat)
    (hd : 0 ≤ cfg.duration) (hc : 0 ≤ cfg.cooldown) (hcy : 0 ≤ cfg.cycleMs) :
    List.Pairwise
      (fun a b : Nat => (b : Int) * cfg.cycleMs + cfg.duration ≤ (a : Int) * cfg.cycleMs)
      (campState cfg draws i).starts ∧
    (∀ j, (campState cfg draws (j + 1)).starts ≠ (campState cfg draws j).starts →
      (campState cfg draws j).timer = 0) ∧
    ∀ s ∈ (campState cfg draws i).starts,
      ((cfg.cycles : Int) - s - 1) * cfg.cycleMs > cfg.duration := by
  obtain ⟨hmem, hchain, _⟩ := campaign_inv cfg draws hd hc hcy i
  refine ⟨?_, ?_, fun s hs => (hmem s hs).2⟩
  · haveI : IsTrans Nat (startGap cfg) := by
      refine ⟨fun a b e hab hbe => ?_⟩
      unfold startGap at hab hbe ⊢
      omega
    have hpw := (List.chain'_iff_pairwise).mp hchain
    refine hpw.imp ?_
    intro a b hab
    unfold startGap at hab
    omega
  · intro j hne
    by_cases hg : gateFires cfg (campState cfg draws j) j (draws j).1 = true
    · exact (gateFires_true_elim _ _ _ _ hg).2.1
    · exfalso
      apply hne
      have hg2 : gateFires cfg (campState cfg draws j) j (draws j).1 = false := by
        simpa using hg
      show (campStep cfg j (draws j).1 (draws j).2 (campState cfg draws j)).starts = _
      simp [campStep, hg2]

theorem campaign_invariants_witness :
    (0 : Int) ≤ 100 ∧
    (List.Pairwise
        (fun a b : Nat => (b : Int) * (100 : Int) + (100 : Int) ≤ (a : Int) * (100 : Int))
        (campState ⟨100, 1, mkRat 1 2, 5, 100, 10⟩ (fun _ => (0, 0)) 5).starts ∧
      (∀ j, (campState ⟨100, 1, mkRat 1 2, 5, 100, 10⟩ (fun _ => (0, 0)) (j + 1)).starts ≠
          (campState ⟨100, 1, mkRat 1 2, 5, 100, 10⟩ (fun _ => (0, 0)) j).starts →
        (campState ⟨100, 1, mkRat 1 2, 5, 100, 10⟩ (fun _ => (0, 0)) j).timer = 0) ∧
      ∀ s ∈ (campState ⟨100, 1, mkRat 1 2, 5, 100, 10⟩ (fun _ => (0, 0)) 5).starts,
        (((10 : Nat) : Int) - s - 1) * (100 : Int) > (100 : Int)) :=
  ⟨by decide, campaign_invariants ⟨100, 1, mkRat 1 2, 5, 100, 10⟩ (fun _ => (0, 0)) 5
    (by decide) (by decide) (by decide)⟩

theorem campaign_single_injection_witness :
    (∀ i : Nat, ((fun _ : Nat => ((500 : Nat), (2 : Nat))) i).1 ≤ 999) ∧
    (campaign_body ⟨100, 0, 1, 5, 100, 5⟩ (fun _ => (500, 2))).starts.length =
      if 3 ≤ (5 : Nat) then 1 else 0 := by
  refine ⟨fun i => by norm_num, ?_⟩
  exact campaign_single_injection ⟨100, 0, 1, 5, 100, 5⟩ (fun _ => (500, 2))
    rfl rfl rfl (by decide) (by decide) (fun i => by norm_num)

theorem collect_foldl_eq (injs : List InjectorLog) : ∀ acc,
    injs.foldl (fun acc inj => if inj.log.length > 0 then acc ++ tagIntervals inj else acc) acc
      = acc ++ (injs.map tagIntervals).flatten := by
  induction injs with
  | nil => intro acc; simp
  | cons inj rest ih =>
    intro acc
    by_cases hp : inj.log.length > 0
    · simp only [List.foldl_cons, hp, if_true, List.map_cons, List.flatten]
      rw [ih]
      simp
    · have hlog : inj.log = [] := by
        cases h : inj.log with
        | nil => rfl
        | cons a t => rw [h] at hp; simp at hp
      simp only [List.foldl_cons, hp, if_false, List.map_cons, List.flatten]
      rw [ih]
      simp [tagIntervals, hlog]

/-- C2: once the campaign has ended, collect_injections returns (without looping on the
force-close path) the concatenation of every injector's intervals, each tagged with that
injector's name, and the campaign is still not running afterwards. -/
theorem collect_injections_merges (st : IMState)
    (hrun : st.campaign_running = false) (hinj : st.injections = none) :
    ∃ st2, collect_injections st = some ((st.injectors.map tagIntervals).flatten, st2) ∧
      st2.campaign_running = false := by
  refine ⟨{ st with injections := some ((st.injectors.map tagIntervals).flatten) }, ?_, by simp [hrun]⟩
  rw [collect_injections, if_neg (by simp [hrun]), hinj]
  simp only [collect_foldl_eq st.injectors [], List.nil_append]

theorem collect_injections_merges_witness :
    (false = false) ∧
    ∃ st2, collect_injections ⟨false, none, [⟨"spin", [(3, 7)]⟩, ⟨"cpu", []⟩]⟩ =
      some ((([⟨"spin", [(3, 7)]⟩, ⟨"cpu", []⟩] : List InjectorLog).map tagIntervals).flatten, st2) ∧
      st2.campaign_running = false :=
  ⟨rfl, collect_injections_merges ⟨false, none, [⟨"spin", [(3, 7)]⟩, ⟨"cpu", []⟩]⟩ rfl rfl⟩

/-- C6 counterexample: a probe whose read_data raises makes read_probes_data raise, so
the registry's collect is not exception-free for every combination of probe outcomes. -/
theorem read_probes_data_raises :
    read_probes_data 0 [Except.error PyExc.err] = Except.error PyExc.err := rfl

theorem read_probes_go_ok (acc : List (String × String)) :
    ∀ ps : List (Option (List (String × String))),
      read_probes_go acc (ps.map Except.ok) =
        Except.ok (some (ps.reduceOption.foldl pyUpdate acc)) := by
  intro ps
  induction ps generalizing acc with
  | nil => rfl
  | cons p rest ih =>
    cases p with
    | none => simp [read_probes_go, List.reduceOption_cons_of_none, ih]
    | some d => simp [read_probes_go, List.reduceOption_cons_of_some, ih]

/-- C6 amended: when every probe's read_data returns normally, read_probes_data never
raises, and a probe returning None contributes nothing to the tick's sample (only the
non-None dicts are folded into the timestamp entry). -/
theorem read_probes_data_ok (now : Int)
    (ps : List (Option (List (String × String)))) (h : ps ≠ []) :
    read_probes_data now (ps.map Except.ok) =
      Except.ok (some (ps.reduceOption.foldl pyUpdate [("timestamp", toString now)])) := by
  rw [read_probes_data, if_neg (by simp [h])]
  exact read_probes_go_ok _ ps

theorem read_probes_data_ok_witness :
    ([none, some [("a", "1")]] : List (Option (List (String × String)))) ≠ [] ∧
    read_probes_data 7
        (([none, some [("a", "1")]] : List (Option (List (String × String)))).map Except.ok) =
      Except.ok (some ((([none, some [("a", "1")]] :
          List (Option (List (String × String)))).reduceOption).foldl pyUpdate
        [("timestamp", toString (7 : Int))])) :=
  ⟨by decide, read_probes_data_ok 7 [none, some [("a", "1")]] (by decide)⟩

/-- C7 counterexample: a row missing the column `a` is written as its own values joined
(line `3`), not as empty-padded header-ordered fields (line `,3`). -/
theorem store_observations_no_padding :
    store_observations false [[("a", "1"), ("b", "2")], [("b", "3")]] ≠
      sinkAppendSpec false [[("a", "1"), ("b", "2")], [("b", "3")]] := by
  decide

/-- C7 amended: for non-empty input, one line per row in input order; when the file is
new the first line is the first row's keys joined; every data line joins that row's own
values in the row's own insertion order (no reorder to the header, no empty-field
padding for missing columns). -/
theorem store_observations_rows (ex : Bool) (obs : List (List (String × String)))
    (h : obs ≠ []) :
    ∃ lines, store_observations ex obs = some lines ∧
      lines.length = obs.length + (if ex then 0 else 1) ∧
      (ex = false → lines.head? = some (joinComma ((obs.headD []).map Prod.fst))) ∧
      ∀ k o, obs[k]? = some o →
        lines[k + (if ex then 0 else 1)]? = some (joinComma (o.map Prod.snd)) := by
  cases ex with
  | false =>
    cases obs with
    | nil => exact absurd rfl h
    | cons first rest =>
      refine ⟨_, rfl, by simp, by intro _; simp, ?_⟩
      intro k o hk
      have hoff : (if (false : Bool) = true then 0 else 1) = 1 := rfl
      rw [hoff, List.getElem?_cons_succ, List.getElem?_map, hk]
      rfl
  | true =>
    refine ⟨_, rfl, by simp, by intro hx; exact absurd hx (by simp), ?_⟩
    intro k o hk
    have hoff : (if (true : Bool) = true then 0 else 1) = 0 := rfl
    rw [hoff, Nat.add_zero, List.getElem?_map, hk]
    rfl

theorem store_observations_rows_witness :
    ([[("a", "1")], [("b", "3")]] : List (List (String × String))) ≠ [] ∧
    ∃ lines, store_observations false [[("a", "1")], [("b", "3")]] = some lines ∧
      lines.length = ([[("a", "1")], [("b", "3")]] : List (List (String × String))).length +
        (if false then 0 else 1) ∧
      ((false : Bool) = false → lines.head? = some (joinComma
        ((([[("a", "1")], [("b", "3")]] :
          List (List (String × String))).headD []).map Prod.fst))) ∧
      ∀ k o, ([[("a", "1")], [("b", "3")]] : List (List (String × String)))[k]? = some o →
        lines[k + (if false then 0 else 1)]? = some (joinComma (o.map Prod.snd)) :=
  ⟨by decide, store_observations_rows false [[("a", "1")], [("b", "3")]] (by decide)⟩

/-- C8 counterexample: on the line `k:a:b` the code keeps only the text between the
first and second colon (value `a`), while the claim demands everything after the first
colon (value `a:b`). -/
theorem shellKV_not_first_colon :
    scriptProbeRead "t" "k:a:b" ≠ shellKVClaim "t" "k:a:b" := by
  decide

theorem getD_zero_eq_headD (l : List String) (d : String) : l.getD 0 d = l.headD d := by
  cases l <;> rfl

theorem getD_one_eq_tail_headD (l : List String) (d : String) :
    l.getD 1 d = l.tail.headD d := by
  cases l with
  | nil => rfl
  | cons a t => cases t <;> rfl

theorem shellKVLine_eq_amended (line : String) :
    shellKVLine line = shellKVAmendedLine line := by
  unfold shellKVLine shellKVAmendedLine
  simp only [getD_zero_eq_headD, getD_one_eq_tail_headD]

/-- C8 amended: the ShellKV parser behaves as claimed except that the value is the text
between the first and second colon; pairs are tag-prefixed, a repeated key
overwriting the earlier pair in place. -/
theorem shellKV_amended_eq (tag : String) (s : String) :
    scriptProbeRead tag s = shellKVAmended tag s := by
  have hline : shellKVLine = shellKVAmendedLine := funext shellKVLine_eq_amended
  rw [scriptProbeRead, to_dict, shellKVAmended, hline]
  by_cases hs : s.length = 0
  · simp [hs]
  · simp [hs]

/-- C9: with no matching process, pgrep exits 1, so the constructor raises
CalledProcessError instead of succeeding with a null target; and the null-target
activation (reachable only with pname None) appends no interval but sleeps
1000 * duration_ms milliseconds, not duration_ms. -/
theorem processHang_absent_raises :
    processHangInit (fun _ => none) "arancino" = Except.error SubprocErr.calledProcessError ∧
    processHangInjectNull 1000 = ([], 1000000) ∧ (1000000 : Int) ≠ 1000 := by
  refine ⟨rfl, rfl, by decide⟩

end Arancino
